import Mathlib

/-!
Shallow embedding of `src/hashtable.rs` from `rosalogia/rust-data-structures`:
a separate-chaining hash table with memoized hashes and load-factor-triggered
doubling.  Pure translation notes:

* The Rust hasher (`DefaultHasher`) is an arbitrary deterministic function
  producing an unsigned integer; the embedding is parametric in `H : K → ℕ`
  (`u64` values are a subset of `ℕ`, and `%` on `u64` never overflows, so
  `Nat` arithmetic is exact here).
* The `f64` load factor is modelled by `F64`: either NaN or an exact real
  (rational) value; IEEE `>=` against NaN is false.  The quotient
  `size as f64 / len as f64` is modelled by exact rational division (for the
  small operand ranges exercised here the rounded `f64` comparison against the
  thresholds used coincides with the exact one).
* Rust `%` by zero panics; the operations that index a bucket are therefore
  `Option`-valued, `none` meaning a panic.
-/

/-- Model of an `f64` as used for the table's load factor: NaN or an exact
real (rational) value. -/
inductive F64 where
  | nan : F64
  | val : ℚ → F64
deriving DecidableEq

/-- IEEE comparison `x >= f` against an `f64` threshold `f`: false when `f`
is NaN. -/
def F64.geq (x : ℚ) : F64 → Bool
  | F64.nan => false
  | F64.val q => decide (q ≤ x)

/-- `HashNode` from the source: a key-value pair together with its memoized
hash, stored so that growth never recomputes hashes. -/
structure HashNode (K V : Type) where
  key : K
  value : V
  hash : ℕ

/-- `HashTable` from the source: a vector of buckets of nodes, the target
maximum load factor, and the number of stored entries (`size`). -/
structure HashTable (K V : Type) where
  buckets : List (List (HashNode K V))
  load_factor : F64
  size : ℕ

variable {K V : Type} [DecidableEq K]

/-- The bucket loop of `_put`: replace the value of the first node with an
equal key in place, otherwise push the new node at the end of the bucket. -/
def bucketPut (n : HashNode K V) : List (HashNode K V) → List (HashNode K V)
  | [] => [⟨n.key, n.value, n.hash⟩]
  | node :: rest =>
    if n.key = node.key then ⟨node.key, n.value, node.hash⟩ :: rest
    else node :: bucketPut n rest

/-- Whether the `_put` scan finds a node with an equal key (in which case it
replaces and does not increment `size`). -/
def keyInBucket (k : K) (b : List (HashNode K V)) : Bool :=
  b.any fun node => k = node.key

/-- `HashTable::_put`: index the bucket by `hash % bucket_count` and either
replace in place or append, incrementing `size` on an append.  `none` models
the Rust panic on `% 0` when the table has no buckets. -/
def HashTable._put (t : HashTable K V) (n : HashNode K V) :
    Option (HashTable K V) :=
  if t.buckets.length = 0 then none
  else
    some { t with
      buckets := t.buckets.set (n.hash % t.buckets.length)
        (bucketPut n (t.buckets.getD (n.hash % t.buckets.length) [])),
      size :=
        if keyInBucket n.key (t.buckets.getD (n.hash % t.buckets.length) [])
        then t.size else t.size + 1 }

/-- The rehash trigger of `put`:
`(size as f64 / buckets.len() as f64) >= load_factor`. -/
def HashTable.growCheck (t : HashTable K V) : Bool :=
  F64.geq ((t.size : ℚ) / (t.buckets.length : ℚ)) t.load_factor

/-- The growth step inside `put`: double the bucket vector, reset `size` to
0, and replay every old node (bucket order, then in-bucket order) through
`_put`, reusing its stored hash. -/
def HashTable.grow (t : HashTable K V) : Option (HashTable K V) :=
  t.buckets.flatten.foldlM HashTable._put
    { t with buckets := List.replicate (t.buckets.length * 2) [], size := 0 }

/-- `HashTable::put`: hash the key once, insert through `_put`, then grow
when the load-factor check fires. -/
def HashTable.put (H : K → ℕ) (t : HashTable K V) (key : K) (value : V) :
    Option (HashTable K V) :=
  (t._put ⟨key, value, H key⟩).bind fun t1 =>
    if t1.growCheck then t1.grow else some t1

/-- `HashTable::get`: recompute the key's hash, scan its bucket by key
equality, and return the value if present.  The outer `Option` models the
panic on zero buckets; the inner one is the source's `Option<&V>`. -/
def HashTable.get (H : K → ℕ) (t : HashTable K V) (key : K) :
    Option (Option V) :=
  if t.buckets.length = 0 then none
  else
    some (((t.buckets.getD (H key % t.buckets.length) []).find?
      fun n => n.key = key).map HashNode.value)

/-- `HashTable::new`: 16 buckets, load factor 1.0, size 0. -/
def HashTable.new : HashTable K V :=
  { buckets := List.replicate 16 [], load_factor := F64.val 1, size := 0 }

/-- `HashTable::with`: caller-chosen bucket count and load factor. -/
def HashTable.«with» (buckets : ℕ) (load_factor : F64) : HashTable K V :=
  { buckets := List.replicate buckets [], load_factor := load_factor,
    size := 0 }

/-- A whole session: iterate `put` over a list of (key, value) operations. -/
def HashTable.puts (H : K → ℕ) (t : HashTable K V) :
    List (K × V) → Option (HashTable K V)
  | [] => some t
  | p :: rest => (t.put H p.1 p.2).bind fun t' => t'.puts H rest

/-- Modelled from the spec for the refinement claim: growth that recomputes
`H key` for every replayed entry instead of reusing the stored hash ("the
bucket that recomputing hash(key) mod new_bucket_count would choose"). -/
def HashTable.growRecomputed (H : K → ℕ) (t : HashTable K V) :
    Option (HashTable K V) :=
  t.buckets.flatten.foldlM (fun s n => s._put ⟨n.key, n.value, H n.key⟩)
    { t with buckets := List.replicate (t.buckets.length * 2) [], size := 0 }

/-- Reference model of a session: a finite map updated in put order. -/
def modelUpd (m : K → Option V) (k : K) (v : V) : K → Option V :=
  fun q => if q = k then some v else m q

/-- The value associated to `k` by the most recent `put` of a session
(`none` when `k` was never put). -/
def modelOf (ops : List (K × V)) : K → Option V :=
  ops.foldl (fun m p => modelUpd m p.1 p.2) fun _ => (none : Option V)

/-- Well-formedness of a table with respect to the hash function `H`:
at least one bucket, memoized hashes are honest, every node sits in the
bucket selected by its stored hash, in-bucket keys are distinct, and `size`
counts the stored nodes. -/
structure WF (H : K → ℕ) (t : HashTable K V) : Prop where
  pos : 1 ≤ t.buckets.length
  hashes : ∀ n ∈ t.buckets.flatten, n.hash = H n.key
  placed : ∀ i (hi : i < t.buckets.length), ∀ n ∈ t.buckets[i],
    n.hash % t.buckets.length = i
  nodupb : ∀ b ∈ t.buckets, (b.map HashNode.key).Nodup
  sized : t.size = t.buckets.flatten.length

/-! ### Bucket-level lemmas -/

lemma bucketPut_find? (n : HashNode K V) (b : List (HashNode K V)) (k : K) :
    ((bucketPut n b).find? fun m => m.key = k).map HashNode.value =
      if k = n.key then some n.value
      else (b.find? fun m => m.key = k).map HashNode.value := by
  induction b with
  | nil =>
    by_cases hk : k = n.key <;> simp [bucketPut, List.find?, hk, eq_comm]
  | cons node rest ih =>
    by_cases hrep : n.key = node.key
    · by_cases hk : k = n.key
      · have h1 : node.key = k := by rw [← hrep, hk]
        simp only [bucketPut, if_pos hrep]
        rw [List.find?_cons_of_pos _ (by simp [h1])]
        simp [hk]
      · have h1 : ¬ (node.key = k) := fun h => hk (hrep.trans h).symm
        simp only [bucketPut, if_pos hrep]
        rw [List.find?_cons_of_neg _ (by simp [h1]),
          List.find?_cons_of_neg _ (by simp [h1])]
        simp [hk]
    · by_cases hn : node.key = k
      · have hk : ¬ (k = n.key) := fun h => hrep (hn.trans h).symm
        simp only [bucketPut, if_neg hrep]
        rw [List.find?_cons_of_pos _ (by simp [hn]),
          List.find?_cons_of_pos _ (by simp [hn])]
        simp [hk]
      · simp only [bucketPut, if_neg hrep]
        rw [List.find?_cons_of_neg _ (by simp [hn]),
          List.find?_cons_of_neg _ (by simp [hn])]
        exact ih

lemma bucketPut_map_key (n : HashNode K V) (b : List (HashNode K V)) :
    (bucketPut n b).map HashNode.key =
      if keyInBucket n.key b then b.map HashNode.key
      else b.map HashNode.key ++ [n.key] := by
  induction b with
  | nil => simp [bucketPut, keyInBucket]
  | cons node rest ih =>
    by_cases hrep : n.key = node.key
    · have hkb : keyInBucket n.key (node :: rest) = true := by
        simp [keyInBucket, List.any_cons, hrep]
      rw [hkb]
      simp [bucketPut, if_pos hrep]
    · have hkb : keyInBucket n.key (node :: rest) = keyInBucket n.key rest := by
        simp [keyInBucket, List.any_cons, hrep]
      rw [hkb]
      simp only [bucketPut, if_neg hrep, List.map_cons]
      rw [ih]
      by_cases hmem : keyInBucket n.key rest = true
      · simp [hmem]
      · have hmem' := Bool.eq_false_iff.mpr hmem
        simp [hmem']

lemma bucketPut_forall (P : K → ℕ → Prop) (n : HashNode K V)
    (b : List (HashNode K V)) (hb : ∀ m ∈ b, P m.key m.hash)
    (hn : P n.key n.hash) : ∀ m ∈ bucketPut n b, P m.key m.hash := by
  induction b with
  | nil =>
    intro m hm
    simp [bucketPut] at hm
    subst hm
    exact hn
  | cons a rest ih =>
    intro m hm
    by_cases hrep : n.key = a.key
    · simp only [bucketPut, if_pos hrep, List.mem_cons] at hm
      rcases hm with h | h
      · subst h; exact hb a (by simp)
      · exact hb m (List.mem_cons_of_mem _ h)
    · simp only [bucketPut, if_neg hrep, List.mem_cons] at hm
      rcases hm with h | h
      · exact hb m (by simp [h])
      · exact ih (fun x hx => hb x (List.mem_cons_of_mem _ hx)) m h

lemma bucketPut_length (n : HashNode K V) (b : List (HashNode K V)) :
    (bucketPut n b).length =
      if keyInBucket n.key b then b.length else b.length + 1 := by
  have h := congrArg List.length (bucketPut_map_key n b)
  rw [apply_ite List.length] at h
  simp only [List.length_map, List.length_append, List.length_singleton] at h
  exact h

lemma keyInBucket_iff_find? (k : K) (b : List (HashNode K V)) :
    keyInBucket k b = true ↔ (b.find? fun m => m.key = k).isSome := by
  rw [List.find?_isSome]
  simp only [keyInBucket, List.any_eq_true, decide_eq_true_eq]
  constructor
  · rintro ⟨x, hx, hk⟩; exact ⟨x, hx, by simp [hk]⟩
  · rintro ⟨x, hx, hk⟩
    exact ⟨x, hx, hk.symm⟩

/-! ### Helpers about `flatten` and `set` -/

lemma flatten_set_forall {α : Type} (P : α → Prop) (l : List (List α))
    (i : ℕ) (b : List α) (hl : ∀ x ∈ l.flatten, P x) (hb : ∀ x ∈ b, P x) :
    ∀ x ∈ (l.set i b).flatten, P x := by
  intro x hx
  rw [List.mem_flatten] at hx
  obtain ⟨c, hc, hxc⟩ := hx
  rcases List.mem_or_eq_of_mem_set hc with h | h
  · exact hl x (List.mem_flatten.2 ⟨c, h, hxc⟩)
  · exact hb x (h ▸ hxc)

lemma length_flatten_set {α : Type} :
    ∀ (l : List (List α)) (i : ℕ), i < l.length → ∀ b : List α,
      (l.set i b).flatten.length + (l.getD i []).length
        = l.flatten.length + b.length := by
  intro l
  induction l with
  | nil => intro i hi b; simp at hi
  | cons x xs ih =>
    intro i hi b
    cases i with
    | zero =>
      simp only [List.set_cons_zero, List.flatten_cons, List.length_append,
        List.getD_cons_zero]
      omega
    | succ j =>
      have hj : j < xs.length := by simpa using hi
      have h := ih j hj b
      simp only [List.set_cons_succ, List.flatten_cons, List.length_append,
        List.getD_cons_succ]
      omega

lemma nodup_append_singleton {α : Type} {l : List α} {a : α} (hl : l.Nodup)
    (ha : a ∉ l) : (l ++ [a]).Nodup := by
  rw [List.nodup_append]
  refine ⟨hl, List.nodup_singleton a, ?_⟩
  intro x hx hxa
  simp only [List.mem_singleton] at hxa
  exact ha (hxa ▸ hx)

lemma getD_set {α : Type} (l : List α) (i j : ℕ) (b d : α)
    (hj : j < l.length) :
    (l.set i b).getD j d = if i = j then b else l.getD j d := by
  rw [List.getD_eq_getElem _ _ (by simpa using hj), List.getElem_set]
  by_cases h : i = j
  · rw [if_pos h, if_pos h]
  · rw [if_neg h, if_neg h, List.getD_eq_getElem _ _ hj]

/-! ### `_put` specification -/

lemma get_eq (H : K → ℕ) (t : HashTable K V) (hpos : 1 ≤ t.buckets.length)
    (q : K) :
    t.get H q = some (((t.buckets.getD (H q % t.buckets.length) []).find?
      fun m => m.key = q).map HashNode.value) := by
  have h0 : ¬ (t.buckets.length = 0) := by omega
  simp [HashTable.get, h0]

lemma _put_eq (t : HashTable K V) (n : HashNode K V)
    (hpos : 1 ≤ t.buckets.length) :
    t._put n = some { t with
      buckets := t.buckets.set (n.hash % t.buckets.length)
        (bucketPut n (t.buckets.getD (n.hash % t.buckets.length) [])),
      size :=
        if keyInBucket n.key (t.buckets.getD (n.hash % t.buckets.length) [])
        then t.size else t.size + 1 } := by
  have h0 : ¬ (t.buckets.length = 0) := by omega
  simp [HashTable._put, h0]

lemma WF.placedD {H : K → ℕ} {t : HashTable K V} (hwf : WF H t) (i : ℕ)
    (hi : i < t.buckets.length) :
    ∀ n ∈ t.buckets.getD i [], n.hash % t.buckets.length = i := by
  intro n hn
  rw [List.getD_eq_getElem _ _ hi] at hn
  exact hwf.placed i hi n hn

lemma _put_spec (H : K → ℕ) {t : HashTable K V} (hwf : WF H t)
    (n : HashNode K V) (hn : n.hash = H n.key) :
    ∃ t', t._put n = some t' ∧ WF H t' ∧
      t'.buckets.length = t.buckets.length ∧
      t'.load_factor = t.load_factor ∧
      (∀ q, t'.get H q =
        if q = n.key then some (some n.value) else t.get H q) ∧
      (t.get H n.key = some none → t'.size = t.size + 1) ∧
      (∀ v, t.get H n.key = some (some v) → t'.size = t.size) := by
  have hpos := hwf.pos
  have h0 : ¬ (t.buckets.length = 0) := by omega
  have hidx : n.hash % t.buckets.length < t.buckets.length :=
    Nat.mod_lt _ (by omega)
  have hbktElem : t.buckets.getD (n.hash % t.buckets.length) []
      = t.buckets[n.hash % t.buckets.length] :=
    List.getD_eq_getElem _ _ hidx
  have hbktMem : t.buckets.getD (n.hash % t.buckets.length) [] ∈ t.buckets := by
    rw [hbktElem]
    exact List.getElem_mem _
  have hbktFlatten : ∀ m ∈ t.buckets.getD (n.hash % t.buckets.length) [],
      m ∈ t.buckets.flatten := fun m hm => List.mem_flatten.2 ⟨_, hbktMem, hm⟩
  refine ⟨_, _put_eq t n hpos, ?_, by simp [List.length_set], rfl, ?_, ?_, ?_⟩
  · constructor
    · simpa [List.length_set] using hpos
    · exact flatten_set_forall _ _ _ _ hwf.hashes
        (bucketPut_forall (fun k h => h = H k) n _
          (fun m hm => hwf.hashes m (hbktFlatten m hm)) hn)
    · intro i hi m hm
      simp only [List.length_set] at hi ⊢
      simp only [List.getElem_set] at hm
      by_cases heq : n.hash % t.buckets.length = i
      · rw [if_pos heq] at hm
        refine bucketPut_forall (fun k h => h % t.buckets.length = i) n _
          ?_ heq m hm
        intro x hx
        exact heq ▸ (WF.placedD hwf _ hidx x hx)
      · rw [if_neg heq] at hm
        exact hwf.placed i hi m hm
    · intro b hb
      rcases List.mem_or_eq_of_mem_set hb with h | h
      · exact hwf.nodupb b h
      · subst h
        rw [bucketPut_map_key]
        by_cases hk : keyInBucket n.key
            (t.buckets.getD (n.hash % t.buckets.length) []) = true
        · rw [if_pos hk]
          exact hwf.nodupb _ hbktMem
        · rw [if_neg hk]
          refine nodup_append_singleton (hwf.nodupb _ hbktMem) ?_
          intro hmem
          rw [List.mem_map] at hmem
          obtain ⟨x, hx, hkey⟩ := hmem
          exact hk (by
            simp only [keyInBucket, List.any_eq_true, decide_eq_true_eq]
            exact ⟨x, hx, hkey.symm⟩)
    · show (if keyInBucket n.key (t.buckets.getD (n.hash % t.buckets.length) [])
          then t.size else t.size + 1)
        = (t.buckets.set (n.hash % t.buckets.length)
            (bucketPut n
              (t.buckets.getD (n.hash % t.buckets.length) []))).flatten.length
      have hlen := length_flatten_set t.buckets (n.hash % t.buckets.length)
        hidx (bucketPut n (t.buckets.getD (n.hash % t.buckets.length) []))
      have hsz := hwf.sized
      have hBlen := bucketPut_length n
        (t.buckets.getD (n.hash % t.buckets.length) [])
      by_cases hk : keyInBucket n.key
          (t.buckets.getD (n.hash % t.buckets.length) []) = true
      · rw [if_pos hk] at hBlen ⊢
        omega
      · rw [if_neg hk] at hBlen ⊢
        omega
  · intro q
    have hq : H q % t.buckets.length < t.buckets.length :=
      Nat.mod_lt _ (by omega)
    rw [get_eq H t hpos q, get_eq H _ (by simpa [List.length_set] using hpos) q]
    simp only [List.length_set]
    rw [getD_set _ _ _ _ _ hq]
    by_cases hqk : q = n.key
    · have hqi : n.hash % t.buckets.length = H q % t.buckets.length := by
        rw [hn, hqk]
      rw [if_pos hqi, bucketPut_find?]
      simp [hqk, hqi]
    · by_cases hqi : n.hash % t.buckets.length = H q % t.buckets.length
      · rw [if_pos hqi, bucketPut_find?, if_neg hqk, hqi, if_neg hqk]
      · rw [if_neg hqi, if_neg hqk]
  · intro hnone
    have hkey := get_eq H t hpos n.key
    rw [← hn, hnone] at hkey
    have hinj := Option.some.inj hkey
    have hfind : (t.buckets.getD (n.hash % t.buckets.length) []).find?
        (fun m => m.key = n.key) = none := by
      cases hfd : (t.buckets.getD (n.hash % t.buckets.length) []).find?
          (fun m => m.key = n.key) with
      | none => rfl
      | some m =>
        rw [hfd] at hinj
        simp at hinj
    have hkb : ¬ keyInBucket n.key
        (t.buckets.getD (n.hash % t.buckets.length) []) = true := by
      rw [keyInBucket_iff_find?, hfind]
      simp
    show (if keyInBucket n.key (t.buckets.getD (n.hash % t.buckets.length) [])
      then t.size else t.size + 1) = t.size + 1
    rw [if_neg hkb]
  · intro v hv
    have hkey := get_eq H t hpos n.key
    rw [← hn, hv] at hkey
    have hinj := Option.some.inj hkey
    have hkb : keyInBucket n.key
        (t.buckets.getD (n.hash % t.buckets.length) []) = true := by
      rw [keyInBucket_iff_find?]
      cases hfd : (t.buckets.getD (n.hash % t.buckets.length) []).find?
          (fun m => m.key = n.key) with
      | none =>
        rw [hfd] at hinj
        simp at hinj
      | some m => simp
    show (if keyInBucket n.key (t.buckets.getD (n.hash % t.buckets.length) [])
      then t.size else t.size + 1) = t.size
    rw [if_pos hkb]

/-! ### Fresh tables -/

lemma flatten_replicate_nil {α : Type} (L : ℕ) :
    (List.replicate L ([] : List α)).flatten = [] := by
  induction L with
  | zero => rfl
  | succ m ih => simpa [List.replicate_succ] using ih

lemma WF_mk_replicate (H : K → ℕ) (L : ℕ) (hL : 1 ≤ L) (lf : F64) :
    WF H ({ buckets := List.replicate L [], load_factor := lf, size := 0 } :
      HashTable K V) := by
  constructor
  · simpa using hL
  · intro m hm
    simp [flatten_replicate_nil] at hm
  · intro i hi m hm
    simp only [List.getElem_replicate] at hm
    simp at hm
  · intro b hb
    rw [List.eq_of_mem_replicate hb]
    simp
  · show 0 = _
    simp [flatten_replicate_nil]

lemma WF_with (H : K → ℕ) (n : ℕ) (hn : 1 ≤ n) (lf : F64) :
    WF H (HashTable.«with» n lf : HashTable K V) :=
  WF_mk_replicate H n hn lf

lemma WF_new (H : K → ℕ) : WF H (HashTable.new : HashTable K V) :=
  WF_mk_replicate H 16 (by omega) (F64.val 1)

lemma get_mk_replicate (H : K → ℕ) (L : ℕ) (hL : 1 ≤ L) (lf : F64) (sz : ℕ)
    (q : K) :
    ({ buckets := List.replicate L [], load_factor := lf, size := sz } :
      HashTable K V).get H q = some none := by
  rw [get_eq H _ (by simpa using hL)]
  have hq : H q % L < L := Nat.mod_lt _ (by omega)
  have hbkt : (List.replicate L ([] : List (HashNode K V))).getD
      (H q % (List.replicate L ([] : List (HashNode K V))).length) [] = [] := by
    rw [List.getD_eq_getElem _ _ (by simpa using hq)]
    simp
  simp only [hbkt]
  simp

/-! ### Global key uniqueness and `get` over the flattened table -/

lemma WF.flatten_keys_nodup {H : K → ℕ} {t : HashTable K V} (hwf : WF H t) :
    (t.buckets.flatten.map HashNode.key).Nodup := by
  rw [List.map_flatten, List.nodup_flatten]
  constructor
  · intro l hl
    rw [List.mem_map] at hl
    obtain ⟨b, hb, rfl⟩ := hl
    exact hwf.nodupb b hb
  · rw [List.pairwise_iff_getElem]
    intro i j hi hj hij
    simp only [List.length_map] at hi hj
    simp only [List.getElem_map]
    intro k hk1 hk2
    rw [List.mem_map] at hk1 hk2
    obtain ⟨m1, hm1, hkey1⟩ := hk1
    obtain ⟨m2, hm2, hkey2⟩ := hk2
    have hp1 := hwf.placed i hi m1 hm1
    have hp2 := hwf.placed j hj m2 hm2
    have hh1 := hwf.hashes m1 (List.mem_flatten.2 ⟨_, List.getElem_mem _, hm1⟩)
    have hh2 := hwf.hashes m2 (List.mem_flatten.2 ⟨_, List.getElem_mem _, hm2⟩)
    rw [hh1, hkey1] at hp1
    rw [hh2, hkey2] at hp2
    omega

lemma get_eq_find_flatten (H : K → ℕ) {t : HashTable K V} (hwf : WF H t)
    (q : K) :
    t.get H q = some ((t.buckets.flatten.find? fun m => m.key = q).map
      HashNode.value) := by
  have hpos := hwf.pos
  have hq : H q % t.buckets.length < t.buckets.length := Nat.mod_lt _ (by omega)
  have key : (t.buckets.getD (H q % t.buckets.length) []).find?
        (fun m => m.key = q)
      = t.buckets.flatten.find? (fun m => m.key = q) := by
    cases hfd : (t.buckets.getD (H q % t.buckets.length) []).find?
        (fun m => m.key = q) with
    | some m =>
      have hmbkt : m ∈ t.buckets.getD (H q % t.buckets.length) [] :=
        List.mem_of_find?_eq_some hfd
      have hmkey : m.key = q := by simpa using List.find?_some hfd
      have hmfl : m ∈ t.buckets.flatten := List.mem_flatten.2
        ⟨_, by rw [List.getD_eq_getElem _ _ hq]; exact List.getElem_mem _,
          hmbkt⟩
      have hsome : (t.buckets.flatten.find? fun m => m.key = q).isSome := by
        rw [List.find?_isSome]
        exact ⟨m, hmfl, by simp [hmkey]⟩
      rcases Option.isSome_iff_exists.1 hsome with ⟨m', hm'⟩
      have hm'fl : m' ∈ t.buckets.flatten := List.mem_of_find?_eq_some hm'
      have hm'key : m'.key = q := by simpa using List.find?_some hm'
      have heq : m = m' :=
        List.inj_on_of_nodup_map hwf.flatten_keys_nodup hmfl hm'fl
          (by rw [hmkey, hm'key])
      rw [hm', heq]
    | none =>
      symm
      rw [List.find?_eq_none]
      intro x hxfl
      simp only [decide_eq_true_eq]
      intro hxkey
      obtain ⟨b, hb, hxb⟩ := List.mem_flatten.1 hxfl
      obtain ⟨i, hi, hbi⟩ := List.mem_iff_getElem.1 hb
      have hpx := hwf.placed i hi x (hbi ▸ hxb)
      have hhx := hwf.hashes x hxfl
      rw [hhx, hxkey] at hpx
      subst hpx
      have hxbkt : x ∈ t.buckets.getD (H q % t.buckets.length) [] := by
        rw [List.getD_eq_getElem _ _ hq]
        exact hbi ▸ hxb
      have := List.find?_eq_none.1 hfd x hxbkt
      simp [hxkey] at this
  rw [get_eq H t hpos q, key]

/-! ### Redistribution (`grow`) -/

lemma foldlM_put_fresh (H : K → ℕ) :
    ∀ (ns : List (HashNode K V)) (s : HashTable K V), WF H s →
      (∀ n ∈ ns, n.hash = H n.key) →
      ((ns.map HashNode.key).Nodup) →
      (∀ n ∈ ns, s.get H n.key = some none) →
      ∃ s', ns.foldlM HashTable._put s = some s' ∧ WF H s' ∧
        s'.buckets.length = s.buckets.length ∧
        s'.load_factor = s.load_factor ∧
        s'.size = s.size + ns.length ∧
        ∀ k, s'.get H k =
          ((ns.find? fun n => n.key = k).map fun n =>
            (some n.value : Option V)).or (s.get H k) := by
  intro ns
  induction ns with
  | nil =>
    intro s hwf _ _ _
    exact ⟨s, rfl, hwf, rfl, rfl, by simp, fun k => by simp [List.find?]⟩
  | cons n rest ih =>
    intro s hwf hh hnd hfresh
    obtain ⟨t1, h1, hwf1, hlen1, hlf1, hget1, hszN, hszS⟩ :=
      _put_spec H hwf n (hh n (by simp))
    have hnd2 : (n.key :: rest.map HashNode.key).Nodup := by
      simpa using hnd
    rw [List.nodup_cons] at hnd2
    have hfresh1 : ∀ m ∈ rest, t1.get H m.key = some none := by
      intro m hm
      rw [hget1]
      have hne : ¬ (m.key = n.key) := fun h =>
        hnd2.1 (List.mem_map.2 ⟨m, hm, h⟩)
      rw [if_neg hne]
      exact hfresh m (by simp [hm])
    obtain ⟨s', hs', hwf', hlen', hlf', hsz', hget'⟩ :=
      ih t1 hwf1 (fun m hm => hh m (by simp [hm])) hnd2.2 hfresh1
    have hsz1 : t1.size = s.size + 1 := hszN (hfresh n (by simp))
    refine ⟨s', ?_, hwf', by rw [hlen', hlen1], by rw [hlf', hlf1], ?_, ?_⟩
    · rw [List.foldlM_cons, h1]
      simpa using hs'
    · rw [hsz', hsz1, List.length_cons]
      omega
    · intro k
      rw [hget' k]
      by_cases hk : n.key = k
      · have hrest : rest.find? (fun m => m.key = k) = none := by
          rw [List.find?_eq_none]
          intro m hm
          simp only [decide_eq_true_eq]
          intro hmk
          exact hnd2.1 (List.mem_map.2 ⟨m, hm, hmk.trans hk.symm⟩)
        rw [hrest, List.find?_cons_of_pos _ (by simp [hk])]
        simp only [Option.map_none', Option.map_some', Option.none_or]
        rw [hget1 k, if_pos hk.symm]
        simp [Option.or]
      · rw [List.find?_cons_of_neg _ (by simp [hk])]
        cases hfd : rest.find? (fun m => m.key = k) with
        | some m => simp
        | none =>
          simp only [Option.map_none', Option.none_or]
          rw [hget1 k, if_neg (fun h => hk h.symm)]

lemma grow_spec (H : K → ℕ) {t : HashTable K V} (hwf : WF H t) :
    ∃ t', t.grow = some t' ∧ WF H t' ∧
      t'.buckets.length = 2 * t.buckets.length ∧
      t'.load_factor = t.load_factor ∧
      t'.size = t.size ∧
      ∀ k, t'.get H k = t.get H k := by
  have hpos := hwf.pos
  have hwf0 : WF H ({ buckets := List.replicate (t.buckets.length * 2) [],
                      load_factor := t.load_factor,
                      size := 0 } : HashTable K V) :=
    WF_mk_replicate H _ (by omega) _
  obtain ⟨s', hs', hwf', hlen', hlf', hsz', hget'⟩ :=
    foldlM_put_fresh H t.buckets.flatten _ hwf0 hwf.hashes
      hwf.flatten_keys_nodup
      (fun n _ => get_mk_replicate H _ (by omega) _ _ _)
  refine ⟨s', hs', hwf', ?_, hlf', ?_, ?_⟩
  · rw [hlen']
    simp [Nat.mul_comm]
  · rw [hsz', hwf.sized]
    simp
  · intro k
    rw [hget' k, get_mk_replicate H _ (by omega) _ _ _,
      get_eq_find_flatten H hwf k]
    cases hfd : t.buckets.flatten.find? (fun m => m.key = k) with
    | some m => simp [hfd]
    | none => simp [hfd]

/-! ### `put` specification -/

lemma growCheck_congr {t s : HashTable K V} (hsz : t.size = s.size)
    (hlen : t.buckets.length = s.buckets.length)
    (hlf : t.load_factor = s.load_factor) : t.growCheck = s.growCheck := by
  rw [HashTable.growCheck, HashTable.growCheck, hsz, hlen, hlf]

lemma growCheck_nan {t : HashTable K V} (h : t.load_factor = F64.nan) :
    t.growCheck = false := by
  rw [HashTable.growCheck, h]
  rfl

lemma growCheck_val_one {t : HashTable K V}
    (hlf : t.load_factor = F64.val 1) (hpos : 1 ≤ t.buckets.length) :
    t.growCheck = decide (t.buckets.length ≤ t.size) := by
  rw [HashTable.growCheck, hlf]
  show decide ((1:ℚ) ≤ (t.size : ℚ) / (t.buckets.length : ℚ)) = _
  rw [decide_eq_decide]
  rw [le_div_iff₀ (show (0:ℚ) < t.buckets.length by exact_mod_cast hpos),
    one_mul, Nat.cast_le]

lemma put_spec (H : K → ℕ) {t : HashTable K V} (hwf : WF H t) (k : K)
    (v : V) :
    ∃ t1 t', t._put ⟨k, v, H k⟩ = some t1 ∧ t.put H k v = some t' ∧
      WF H t1 ∧ WF H t' ∧
      t1.buckets.length = t.buckets.length ∧
      t1.load_factor = t.load_factor ∧
      t'.load_factor = t.load_factor ∧
      (t.get H k = some none → t1.size = t.size + 1) ∧
      (∀ w, t.get H k = some (some w) → t1.size = t.size) ∧
      t'.size = t1.size ∧
      (if t1.growCheck then t'.buckets.length = 2 * t.buckets.length
        else t' = t1) ∧
      (∀ q, t'.get H q = if q = k then some (some v) else t.get H q) := by
  obtain ⟨t1, h1, hwf1, hlen1, hlf1, hget1, hszN, hszS⟩ :=
    _put_spec H hwf ⟨k, v, H k⟩ rfl
  by_cases hg : t1.growCheck = true
  · obtain ⟨t2, h2, hwf2, hlen2, hlf2, hsz2, hget2⟩ := grow_spec H hwf1
    refine ⟨t1, t2, h1, ?_, hwf1, hwf2, hlen1, hlf1, hlf2.trans hlf1, hszN,
      hszS, hsz2.symm ▸ rfl, ?_, ?_⟩
    · rw [HashTable.put, h1]
      show (if t1.growCheck then t1.grow else some t1) = some t2
      rw [if_pos hg]
      exact h2
    · rw [if_pos hg, hlen2, hlen1]
    · intro q
      rw [hget2 q, hget1 q]
  · refine ⟨t1, t1, h1, ?_, hwf1, hwf1, hlen1, hlf1, hlf1, hszN, hszS, rfl,
      ?_, hget1⟩
    · rw [HashTable.put, h1]
      show (if t1.growCheck then t1.grow else some t1) = some t1
      rw [if_neg hg]
    · rw [if_neg hg]

/-! ### Sessions -/

lemma foldl_modelUpd (ops : List (K × V)) :
    ∀ (m : K → Option V) (k : K),
      ops.foldl (fun m p => modelUpd m p.1 p.2) m k
        = match modelOf ops k with
          | some v => some v
          | none => m k := by
  induction ops with
  | nil => intro m k; simp [modelOf]
  | cons p rest ih =>
    intro m k
    rw [List.foldl_cons, ih]
    have hcons : modelOf (p :: rest) k
        = match modelOf rest k with
          | some v => some v
          | none => modelUpd (fun _ => none) p.1 p.2 k := by
      show (p :: rest).foldl (fun m p => modelUpd m p.1 p.2)
        (fun _ => (none : Option V)) k = _
      rw [List.foldl_cons, ih]
    rw [hcons]
    cases hmo : modelOf rest k with
    | some v => simp
    | none =>
      simp only []
      by_cases hk : k = p.1
      · simp [modelUpd, hk]
      · simp [modelUpd, hk]

lemma puts_spec (H : K → ℕ) :
    ∀ (ops : List (K × V)) (t : HashTable K V), WF H t →
      ∃ t', t.puts H ops = some t' ∧ WF H t' ∧
        t'.load_factor = t.load_factor ∧
        t.buckets.length ≤ t'.buckets.length ∧
        (t.load_factor = F64.nan → t'.buckets.length = t.buckets.length) ∧
        ∀ k, t'.get H k =
          match modelOf ops k with
          | some v => some (some v)
          | none => t.get H k := by
  intro ops
  induction ops with
  | nil =>
    intro t hwf
    exact ⟨t, rfl, hwf, rfl, le_refl _, fun _ => rfl,
      fun k => by simp [modelOf]⟩
  | cons p rest ih =>
    intro t hwf
    obtain ⟨t1, t', h1, hput, hwf1, hwf', hlen1, hlf1, hlf', hszN, hszS,
      hsz', hgrow, hget'⟩ := put_spec H hwf p.1 p.2
    obtain ⟨t2, hputs, hwf2, hlf2, hlen2, hnan2, hget2⟩ := ih t' hwf'
    have hlen' : t.buckets.length ≤ t'.buckets.length := by
      by_cases hg : t1.growCheck = true
      · rw [if_pos hg] at hgrow
        omega
      · rw [if_neg hg] at hgrow
        rw [hgrow, hlen1]
    refine ⟨t2, ?_, hwf2, hlf2.trans hlf', by omega, ?_, ?_⟩
    · show (t.put H p.1 p.2).bind (fun s => s.puts H rest) = some t2
      rw [hput]
      exact hputs
    · intro hnan
      have hg : t1.growCheck = false := growCheck_nan (hlf1.trans hnan)
      rw [if_neg (by simp [hg])] at hgrow
      rw [hnan2 (hlf'.trans hnan), hgrow, hlen1]
    · intro k
      rw [hget2 k]
      have hm : modelOf (p :: rest) k = match modelOf rest k with
          | some v => some v
          | none => if k = p.1 then some p.2 else none := by
        show (p :: rest).foldl (fun m p => modelUpd m p.1 p.2)
          (fun _ => (none : Option V)) k = _
        rw [List.foldl_cons, foldl_modelUpd]
        cases modelOf rest k <;> simp [modelUpd]
      rw [hm]
      cases hmo : modelOf rest k with
      | some v => simp
      | none =>
        simp only []
        rw [hget' k]
        by_cases hk : k = p.1
        · simp [hk]
        · simp [hk]

/-! ### Remaining infrastructure -/

lemma foldlM_congr {α β : Type} {f g : β → α → Option β} :
    ∀ (l : List α), (∀ a ∈ l, ∀ b, f b a = g b a) → ∀ b : β,
      l.foldlM f b = l.foldlM g b := by
  intro l
  induction l with
  | nil => intro _ b; rfl
  | cons a rest ih =>
    intro h b
    rw [List.foldlM_cons, List.foldlM_cons, h a (by simp)]
    cases hga : g b a with
    | none => simp
    | some b' =>
      simp only [Option.bind_eq_bind, Option.some_bind]
      exact ih (fun x hx c => h x (by simp [hx]) c) b'

lemma grow_eq_growRecomputed (H : K → ℕ) {t : HashTable K V}
    (hh : ∀ n ∈ t.buckets.flatten, n.hash = H n.key) :
    t.grow = t.growRecomputed H := by
  rw [HashTable.grow, HashTable.growRecomputed]
  refine foldlM_congr _ ?_ _
  intro n hn s
  rw [show (⟨n.key, n.value, H n.key⟩ : HashNode K V) = n by rw [← hh n hn]]

lemma _put_total (t : HashTable K V) (n : HashNode K V)
    (hpos : 1 ≤ t.buckets.length) :
    ∃ t', t._put n = some t' ∧ t'.buckets.length = t.buckets.length ∧
      t'.load_factor = t.load_factor :=
  ⟨_, _put_eq t n hpos, by simp [List.length_set], rfl⟩

lemma foldlM_put_total :
    ∀ (ns : List (HashNode K V)) (s : HashTable K V), 1 ≤ s.buckets.length →
      ∃ s', ns.foldlM HashTable._put s = some s' ∧
        s'.buckets.length = s.buckets.length := by
  intro ns
  induction ns with
  | nil => intro s _; exact ⟨s, rfl, rfl⟩
  | cons n rest ih =>
    intro s h
    obtain ⟨t1, h1, hlen1, _⟩ := _put_total s n h
    obtain ⟨s', hs', hlen'⟩ := ih t1 (by omega)
    refine ⟨s', ?_, by omega⟩
    rw [List.foldlM_cons, h1]
    simpa using hs'

lemma put_total (H : K → ℕ) (t : HashTable K V)
    (hpos : 1 ≤ t.buckets.length) (k : K) (v : V) :
    ∃ t', t.put H k v = some t' ∧ 1 ≤ t'.buckets.length := by
  obtain ⟨t1, h1, hlen1, hlf1⟩ := _put_total t ⟨k, v, H k⟩ hpos
  by_cases hg : t1.growCheck = true
  · obtain ⟨t2, h2, hlen2⟩ := foldlM_put_total t1.buckets.flatten
      { t1 with buckets := List.replicate (t1.buckets.length * 2) [],
                size := 0 }
      (by
        show 1 ≤ (List.replicate (t1.buckets.length * 2)
          ([] : List (HashNode K V))).length
        rw [List.length_replicate]
        omega)
    refine ⟨t2, ?_, ?_⟩
    · rw [HashTable.put, h1]
      show (if t1.growCheck then t1.grow else some t1) = some t2
      rw [if_pos hg]
      exact h2
    · rw [hlen2]
      show 1 ≤ (List.replicate (t1.buckets.length * 2)
        ([] : List (HashNode K V))).length
      rw [List.length_replicate]
      omega
  · refine ⟨t1, ?_, by omega⟩
    rw [HashTable.put, h1]
    show (if t1.growCheck then t1.grow else some t1) = some t1
    rw [if_neg hg]

lemma growCheck_val_zero {t : HashTable K V}
    (hlf : t.load_factor = F64.val 0) : t.growCheck = true := by
  rw [HashTable.growCheck, hlf]
  show decide ((0:ℚ) ≤ (t.size : ℚ) / (t.buckets.length : ℚ)) = true
  rw [decide_eq_true_eq]
  exact div_nonneg (Nat.cast_nonneg _) (Nat.cast_nonneg _)

lemma puts_fresh_trajectory (H : K → ℕ) :
    ∀ (ops : List (K × V)) (t : HashTable K V), WF H t →
      t.load_factor = F64.val 1 →
      (∀ p ∈ ops, t.get H p.1 = some none) →
      ((ops.map Prod.fst).Nodup) →
      t.size + ops.length ≤ 31 →
      t.buckets.length = (if t.size < 16 then 16 else 32) →
      ∃ t', t.puts H ops = some t' ∧ t'.size = t.size + ops.length ∧
        t'.buckets.length = (if t'.size < 16 then 16 else 32) := by
  intro ops
  induction ops with
  | nil =>
    intro t _ _ _ _ _ hlen
    exact ⟨t, rfl, by simp, hlen⟩
  | cons p rest ih =>
    intro t hwf hlf hfresh hnd hbound hlen
    obtain ⟨t1, t', h1, hput, hwf1, hwf', hlen1, hlf1, hlf', hszN, hszS,
      hsz', hgrow, hget'⟩ := put_spec H hwf p.1 p.2
    have hfreshp : t.get H p.1 = some none := hfresh p (by simp)
    have hsz1 : t1.size = t.size + 1 := hszN hfreshp
    have hnd2 : (p.1 :: rest.map Prod.fst).Nodup := by simpa using hnd
    rw [List.nodup_cons] at hnd2
    have hpos1 : 1 ≤ t1.buckets.length := hwf1.pos
    have hgc : t1.growCheck = decide (t1.buckets.length ≤ t1.size) :=
      growCheck_val_one (hlf1.trans hlf) hpos1
    have hfresh' : ∀ q ∈ rest, t'.get H q.1 = some none := by
      intro q hq
      rw [hget' q.1]
      have hne : ¬ (q.1 = p.1) := fun h =>
        hnd2.1 (List.mem_map.2 ⟨q, hq, h⟩)
      rw [if_neg hne]
      exact hfresh q (by simp [hq])
    have hszT' : t'.size = t.size + 1 := by rw [hsz', hsz1]
    have hshape : t'.buckets.length = (if t'.size < 16 then 16 else 32) := by
      by_cases hcase : t.size + 1 < 16
      · have hlen16 : t.buckets.length = 16 := by
          rw [hlen, if_pos (by omega)]
        have hgc' : t1.growCheck = false := by
          rw [hgc, hlen1, hsz1, hlen16]
          simp only [decide_eq_false_iff_not]
          omega
        rw [if_neg (by simp [hgc'])] at hgrow
        rw [hgrow, hlen1, hlen16, hsz1, if_pos hcase]
      · by_cases hcase2 : t.size + 1 = 16
        · have hlen16 : t.buckets.length = 16 := by
            rw [hlen, if_pos (by omega)]
          have hgc' : t1.growCheck = true := by
            rw [hgc, hlen1, hsz1, hlen16]
            simp only [decide_eq_true_eq]
            omega
          rw [if_pos hgc'] at hgrow
          rw [hgrow, hlen16, hszT', if_neg (by omega)]
        · have hlen32 : t.buckets.length = 32 := by
            rw [hlen, if_neg (by omega)]
          have hgc' : t1.growCheck = false := by
            rw [hgc, hlen1, hsz1, hlen32]
            simp only [decide_eq_false_iff_not]
            simp only [List.length_cons] at hbound
            omega
          rw [if_neg (by simp [hgc'])] at hgrow
          rw [hgrow, hlen1, hlen32, hsz1, if_neg (by omega)]
    obtain ⟨t2, hputs, hsz2, hlen2⟩ := ih t' hwf' (hlf'.trans hlf) hfresh'
      hnd2.2
      (by
        rw [hszT']
        simp only [List.length_cons] at hbound
        omega)
      hshape
    refine ⟨t2, ?_, ?_, hlen2⟩
    · show (t.put H p.1 p.2).bind (fun s => s.puts H rest) = some t2
      rw [hput]
      exact hputs
    · rw [hsz2, hszT', List.length_cons]
      omega

/-! ### Claim theorems -/

/-- Identity hash on naturals, used to instantiate witnesses. -/
def Hid : ℕ → ℕ := fun n => n

/-- **C1**: for every sequence of `put` calls on a well-formed table (bucket
count at least 1), `get k` afterwards returns the value of the most recent
`put k v` of the sequence (`modelOf`), and `get` on a key never put returns
`None`; this holds across any growths triggered within the sequence. -/
theorem C1_round_trip (H : K → ℕ) (n : ℕ) (lf : F64) (hn : 1 ≤ n)
    (ops : List (K × V)) :
    ∃ t, (HashTable.«with» n lf : HashTable K V).puts H ops = some t ∧
      ∀ k, t.get H k = some (modelOf ops k) := by
  obtain ⟨t, hputs, _, _, _, _, hget⟩ :=
    puts_spec H ops _ (WF_with H n hn lf)
  refine ⟨t, hputs, ?_⟩
  intro k
  rw [hget k]
  cases hmo : modelOf ops k with
  | some v => simp
  | none =>
    simp only []
    exact get_mk_replicate H n hn lf 0 k

theorem C1_round_trip_witness :
    1 ≤ 1 ∧
    ∃ t, (HashTable.«with» 1 (F64.val 1) : HashTable ℕ ℕ).puts Hid
        [(5, 7)] = some t ∧
      ∀ k, t.get Hid k = some (modelOf [(5, 7)] k) :=
  ⟨by decide, C1_round_trip Hid 1 (F64.val 1) (by decide) [(5, 7)]⟩

/-- **C2**: whenever a `put` triggers a growth (the load-factor check is true
after the internal insert), no entry is lost, duplicated, or corrupted:
every pair present before the growth-triggering put, plus the new pair,
resolves correctly via `get` immediately afterwards, and the entry count
after redistribution equals the pre-growth count (the count that was reset
to 0 and re-incremented during the replay). -/
theorem C2_growth_preserves (H : K → ℕ) {t t1 : HashTable K V}
    (hwf : WF H t) (k : K) (v : V)
    (h1 : t._put ⟨k, v, H k⟩ = some t1) (hg : t1.growCheck = true) :
    ∃ t2, t1.grow = some t2 ∧ t.put H k v = some t2 ∧
      t2.size = t1.size ∧
      t2.get H k = some (some v) ∧
      ∀ q, q ≠ k → t2.get H q = t.get H q := by
  obtain ⟨t1', h1', hwf1, hlen1, hlf1, hget1, _, _⟩ :=
    _put_spec H hwf ⟨k, v, H k⟩ rfl
  rw [h1] at h1'
  injection h1' with heq
  subst heq
  obtain ⟨t2, h2, hwf2, hlen2, hlf2, hsz2, hget2⟩ := grow_spec H hwf1
  refine ⟨t2, h2, ?_, hsz2, ?_, ?_⟩
  · rw [HashTable.put, h1]
    show (if t1.growCheck then t1.grow else some t1) = some t2
    rw [if_pos hg]
    exact h2
  · rw [hget2 k, hget1 k, if_pos rfl]
  · intro q hq
    rw [hget2 q, hget1 q, if_neg hq]

theorem C2_growth_preserves_witness :
    (HashTable.«with» 1 (F64.val 1) : HashTable ℕ ℕ)._put ⟨0, 9, Hid 0⟩
        = some ⟨[[⟨0, 9, 0⟩]], F64.val 1, 1⟩ ∧
    (⟨[[⟨0, 9, 0⟩]], F64.val 1, 1⟩ : HashTable ℕ ℕ).growCheck = true ∧
    ∃ t2, (⟨[[⟨0, 9, 0⟩]], F64.val 1, 1⟩ : HashTable ℕ ℕ).grow = some t2 ∧
      (HashTable.«with» 1 (F64.val 1) : HashTable ℕ ℕ).put Hid 0 9
        = some t2 ∧
      t2.size = (⟨[[⟨0, 9, 0⟩]], F64.val 1, 1⟩ : HashTable ℕ ℕ).size ∧
      t2.get Hid 0 = some (some 9) ∧
      ∀ q, q ≠ 0 → t2.get Hid q
        = (HashTable.«with» 1 (F64.val 1) : HashTable ℕ ℕ).get Hid q :=
  ⟨rfl, (growCheck_val_one rfl (by decide)).trans rfl,
    C2_growth_preserves Hid (WF_with Hid 1 (by decide) (F64.val 1)) 0 9 rfl
      ((growCheck_val_one rfl (by decide)).trans rfl)⟩

/-- **C3**: after any `put` completes, the load-factor check is false on the
resulting table or a resize was just performed; the resize fires exactly
when the post-insert check is true, is unconditional once triggered, occurs
at most once per `put`, and exactly doubles the bucket count, which never
shrinks. -/
theorem C3_load_factor_discipline (H : K → ℕ) {t : HashTable K V}
    (hwf : WF H t) (k : K) (v : V) :
    ∃ t1 t', t._put ⟨k, v, H k⟩ = some t1 ∧ t.put H k v = some t' ∧
      (t'.growCheck = false ∨
        t'.buckets.length = 2 * t.buckets.length) ∧
      (t1.growCheck = true ↔
        t'.buckets.length = 2 * t.buckets.length) ∧
      (t1.growCheck = false → t' = t1) ∧
      (t'.buckets.length = t.buckets.length ∨
        t'.buckets.length = 2 * t.buckets.length) ∧
      t.buckets.length ≤ t'.buckets.length := by
  obtain ⟨t1, t', h1, hput, hwf1, hwf', hlen1, hlf1, hlf', hszN, hszS,
    hsz', hgrow, hget'⟩ := put_spec H hwf k v
  have hpos := hwf.pos
  by_cases hg : t1.growCheck = true
  · rw [if_pos hg] at hgrow
    refine ⟨t1, t', h1, hput, Or.inr hgrow, ⟨fun _ => hgrow, fun _ => hg⟩,
      ?_, Or.inr hgrow, by omega⟩
    intro hgf
    exact absurd hg (by simp [hgf])
  · rw [if_neg hg] at hgrow
    have hgf : t1.growCheck = false := by
      cases hcb : t1.growCheck
      · rfl
      · exact absurd hcb hg
    refine ⟨t1, t', h1, hput, ?_, ?_, fun _ => hgrow, ?_, ?_⟩
    · left
      rw [hgrow]
      exact hgf
    · constructor
      · intro h
        exact absurd h hg
      · intro hlen
        rw [hgrow, hlen1] at hlen
        exfalso
        omega
    · left
      rw [hgrow, hlen1]
    · rw [hgrow, hlen1]

theorem C3_load_factor_discipline_witness :
    ∃ t1 t', (HashTable.new : HashTable ℕ ℕ)._put ⟨0, 3, Hid 0⟩ = some t1 ∧
      (HashTable.new : HashTable ℕ ℕ).put Hid 0 3 = some t' ∧
      (t'.growCheck = false ∨
        t'.buckets.length
          = 2 * (HashTable.new : HashTable ℕ ℕ).buckets.length) ∧
      (t1.growCheck = true ↔
        t'.buckets.length
          = 2 * (HashTable.new : HashTable ℕ ℕ).buckets.length) ∧
      (t1.growCheck = false → t' = t1) ∧
      (t'.buckets.length = (HashTable.new : HashTable ℕ ℕ).buckets.length ∨
        t'.buckets.length
          = 2 * (HashTable.new : HashTable ℕ ℕ).buckets.length) ∧
      (HashTable.new : HashTable ℕ ℕ).buckets.length
        ≤ t'.buckets.length :=
  C3_load_factor_discipline Hid (WF_new Hid) 0 3

/-- **C4**: in every table reachable from a constructor by `put` calls (with
consistent hashing and bucket count at least 1): keys within any single
bucket are pairwise distinct, each key appears in exactly one bucket, namely
the one at index `hash(key) mod bucket_count`, and the entry count equals
the sum of all bucket lengths. -/
theorem C4_bucket_invariants (H : K → ℕ) (n : ℕ) (lf : F64) (hn : 1 ≤ n)
    (ops : List (K × V)) :
    ∃ t, (HashTable.«with» n lf : HashTable K V).puts H ops = some t ∧
      (∀ b ∈ t.buckets, (b.map HashNode.key).Nodup) ∧
      (∀ i (hi : i < t.buckets.length), ∀ m ∈ t.buckets[i],
        H m.key % t.buckets.length = i) ∧
      ((t.buckets.flatten.map HashNode.key).Nodup) ∧
      t.size = (t.buckets.map List.length).sum := by
  obtain ⟨t, hputs, hwf, _⟩ := puts_spec H ops _ (WF_with H n hn lf)
  refine ⟨t, hputs, hwf.nodupb, ?_, hwf.flatten_keys_nodup, ?_⟩
  · intro i hi m hm
    rw [← hwf.hashes m (List.mem_flatten.2 ⟨_, List.getElem_mem _, hm⟩)]
    exact hwf.placed i hi m hm
  · rw [hwf.sized, List.length_flatten]

theorem C4_bucket_invariants_witness :
    1 ≤ 2 ∧
    ∃ t, (HashTable.«with» 2 (F64.val 1) : HashTable ℕ ℕ).puts Hid
        [(0, 4), (1, 5)] = some t ∧
      (∀ b ∈ t.buckets, (b.map HashNode.key).Nodup) ∧
      (∀ i (hi : i < t.buckets.length), ∀ m ∈ t.buckets[i],
        Hid m.key % t.buckets.length = i) ∧
      ((t.buckets.flatten.map HashNode.key).Nodup) ∧
      t.size = (t.buckets.map List.length).sum :=
  ⟨by decide,
    C4_bucket_invariants Hid 2 (F64.val 1) (by decide) [(0, 4), (1, 5)]⟩

/-- **C5**: in every reachable table, every stored entry's memoized hash
field equals the hash function applied to its key; consequently growth
redistribution by the stored hash coincides with the variant that recomputes
`hash(key)` for every entry (`growRecomputed`, modelled from the spec). -/
theorem C5_hash_memoized (H : K → ℕ) (n : ℕ) (lf : F64) (hn : 1 ≤ n)
    (ops : List (K × V)) :
    ∃ t, (HashTable.«with» n lf : HashTable K V).puts H ops = some t ∧
      (∀ m ∈ t.buckets.flatten, m.hash = H m.key) ∧
      t.grow = t.growRecomputed H := by
  obtain ⟨t, hputs, hwf, _⟩ := puts_spec H ops _ (WF_with H n hn lf)
  exact ⟨t, hputs, hwf.hashes, grow_eq_growRecomputed H hwf.hashes⟩

theorem C5_hash_memoized_witness :
    1 ≤ 1 ∧
    ∃ t, (HashTable.«with» 1 (F64.val 1) : HashTable ℕ ℕ).puts Hid
        [(2, 3)] = some t ∧
      (∀ m ∈ t.buckets.flatten, m.hash = Hid m.key) ∧
      t.grow = t.growRecomputed Hid :=
  ⟨by decide, C5_hash_memoized Hid 1 (F64.val 1) (by decide) [(2, 3)]⟩

/-- **C6**: for any key `k` and values `v1`, `v2`, on any well-formed table,
`put k v1` followed by `put k v2` yields `get k = v2`, and the entry count
after the second put equals the entry count after the first put. -/
theorem C6_replace_same_key (H : K → ℕ) {t : HashTable K V} (hwf : WF H t)
    (k : K) (v1 v2 : V) :
    ∃ t1 t2, t.put H k v1 = some t1 ∧ t1.put H k v2 = some t2 ∧
      t2.get H k = some (some v2) ∧ t2.size = t1.size := by
  obtain ⟨s1, u1, _, hput1, _, hwfu1, _, _, _, _, _, _, _, hget1⟩ :=
    put_spec H hwf k v1
  obtain ⟨s2, u2, _, hput2, _, _, _, _, _, _, hszS2, hsz2, _, hget2⟩ :=
    put_spec H hwfu1 k v2
  refine ⟨u1, u2, hput1, hput2, ?_, ?_⟩
  · rw [hget2 k, if_pos rfl]
  · rw [hsz2, hszS2 v1 (by rw [hget1 k, if_pos rfl])]

theorem C6_replace_same_key_witness :
    ∃ t1 t2, (HashTable.new : HashTable ℕ ℕ).put Hid 0 1 = some t1 ∧
      t1.put Hid 0 2 = some t2 ∧
      t2.get Hid 0 = some (some 2) ∧ t2.size = t1.size :=
  C6_replace_same_key Hid (WF_new Hid) 0 1 2

/-- **C7** (counterexample): the claim says a `put` on an already-present key
never grows the table.  With load factor 0.0, after `put 0 1` on a 1-bucket
table the key 0 is present and the table has 2 buckets, yet `put 0 2` — a
pure replacement — leaves 4 buckets: the resize check runs after every
insert, replacements included. -/
theorem C7_only_replaces_cex :
    ((HashTable.«with» 1 (F64.val 0) : HashTable ℕ ℕ).put Hid 0 1).bind
        (fun t1 => t1.get Hid 0) = some (some 1) ∧
    ((HashTable.«with» 1 (F64.val 0) : HashTable ℕ ℕ).put Hid 0 1).map
        (fun t1 => t1.buckets.length) = some 2 ∧
    ((HashTable.«with» 1 (F64.val 0) : HashTable ℕ ℕ).put Hid 0 1).bind
        (fun t1 => (t1.put Hid 0 2).map fun t2 => t2.buckets.length)
      = some 4 := by
  have h1 : (HashTable.«with» 1 (F64.val 0) : HashTable ℕ ℕ)._put
      ⟨0, 1, Hid 0⟩ = some ⟨[[⟨0, 1, 0⟩]], F64.val 0, 1⟩ := rfl
  have hput1 : (HashTable.«with» 1 (F64.val 0) : HashTable ℕ ℕ).put Hid 0 1
      = some ⟨[[⟨0, 1, 0⟩], []], F64.val 0, 1⟩ := by
    rw [HashTable.put, h1]
    show (if (⟨[[⟨0, 1, 0⟩]], F64.val 0, 1⟩ : HashTable ℕ ℕ).growCheck
        then (⟨[[⟨0, 1, 0⟩]], F64.val 0, 1⟩ : HashTable ℕ ℕ).grow
        else some ⟨[[⟨0, 1, 0⟩]], F64.val 0, 1⟩)
      = some ⟨[[⟨0, 1, 0⟩], []], F64.val 0, 1⟩
    rw [if_pos (growCheck_val_zero rfl)]
    rfl
  have h2 : (⟨[[⟨0, 1, 0⟩], []], F64.val 0, 1⟩ : HashTable ℕ ℕ)._put
      ⟨0, 2, Hid 0⟩ = some ⟨[[⟨0, 2, 0⟩], []], F64.val 0, 1⟩ := rfl
  have hput2 : (⟨[[⟨0, 1, 0⟩], []], F64.val 0, 1⟩ : HashTable ℕ ℕ).put
      Hid 0 2 = some ⟨[[⟨0, 2, 0⟩], [], [], []], F64.val 0, 1⟩ := by
    rw [HashTable.put, h2]
    show (if (⟨[[⟨0, 2, 0⟩], []], F64.val 0, 1⟩ : HashTable ℕ ℕ).growCheck
        then (⟨[[⟨0, 2, 0⟩], []], F64.val 0, 1⟩ : HashTable ℕ ℕ).grow
        else some ⟨[[⟨0, 2, 0⟩], []], F64.val 0, 1⟩)
      = some ⟨[[⟨0, 2, 0⟩], [], [], []], F64.val 0, 1⟩
    rw [if_pos (growCheck_val_zero rfl)]
    rfl
  refine ⟨?_, ?_, ?_⟩
  · rw [hput1]
    rfl
  · rw [hput1]
    rfl
  · rw [hput1]
    show ((⟨[[⟨0, 1, 0⟩], []], F64.val 0, 1⟩ : HashTable ℕ ℕ).put
      Hid 0 2).map (fun t2 => t2.buckets.length) = some 4
    rw [hput2]
    rfl

/-- **C7** (amended): a `put` whose key is already present only replaces
that entry's value in place — entry count, bucket count, load factor and all
other entries are unchanged and no growth occurs — provided the table's
load-factor check is false when the put is issued.  The proviso is forced by
the counterexample: the source runs the resize check after every insert,
replacements included, so a table whose ratio already reaches the threshold
grows even on a pure replacement. -/
theorem C7_replace_in_place (H : K → ℕ) {t : HashTable K V} (hwf : WF H t)
    (k : K) (v v₀ : V) (hpresent : t.get H k = some (some v₀))
    (hng : t.growCheck = false) :
    ∃ t', t.put H k v = some t' ∧
      t'.size = t.size ∧
      t'.buckets.length = t.buckets.length ∧
      t'.load_factor = t.load_factor ∧
      t'.get H k = some (some v) ∧
      ∀ q, q ≠ k → t'.get H q = t.get H q := by
  obtain ⟨t1, t', h1, hput, hwf1, hwf', hlen1, hlf1, hlf', hszN, hszS, hsz',
    hgrow, hget'⟩ := put_spec H hwf k v
  have hsz1 : t1.size = t.size := hszS v₀ hpresent
  have hg : t1.growCheck = false := by
    rw [growCheck_congr hsz1 hlen1 hlf1]
    exact hng
  rw [if_neg (by simp [hg])] at hgrow
  refine ⟨t', hput, ?_, ?_, hlf', ?_, ?_⟩
  · rw [hsz', hsz1]
  · rw [hgrow, hlen1]
  · rw [hget' k, if_pos rfl]
  · intro q hq
    rw [hget' q, if_neg hq]

lemma WF_pair_example : WF Hid (⟨[[⟨0, 1, 0⟩], []], F64.val 1, 1⟩ :
    HashTable ℕ ℕ) := by
  constructor
  · decide
  · decide
  · intro i hi m hm
    have hi' : i < 2 := hi
    interval_cases i
    · simp at hm
      subst hm
      rfl
    · simp at hm
  · decide
  · rfl

theorem C7_replace_in_place_witness :
    (⟨[[⟨0, 1, 0⟩], []], F64.val 1, 1⟩ : HashTable ℕ ℕ).get Hid 0
        = some (some 1) ∧
    (⟨[[⟨0, 1, 0⟩], []], F64.val 1, 1⟩ : HashTable ℕ ℕ).growCheck = false ∧
    ∃ t', (⟨[[⟨0, 1, 0⟩], []], F64.val 1, 1⟩ : HashTable ℕ ℕ).put Hid 0 2
        = some t' ∧
      t'.size = (⟨[[⟨0, 1, 0⟩], []], F64.val 1, 1⟩ : HashTable ℕ ℕ).size ∧
      t'.buckets.length
        = (⟨[[⟨0, 1, 0⟩], []], F64.val 1, 1⟩ :
            HashTable ℕ ℕ).buckets.length ∧
      t'.load_factor
        = (⟨[[⟨0, 1, 0⟩], []], F64.val 1, 1⟩ : HashTable ℕ ℕ).load_factor ∧
      t'.get Hid 0 = some (some 2) ∧
      ∀ q, q ≠ 0 → t'.get Hid q
        = (⟨[[⟨0, 1, 0⟩], []], F64.val 1, 1⟩ : HashTable ℕ ℕ).get Hid q :=
  ⟨rfl, (growCheck_val_one rfl (by decide)).trans rfl,
    C7_replace_in_place Hid WF_pair_example 0 2 1 rfl
      ((growCheck_val_one rfl (by decide)).trans rfl)⟩

/-- **C8**: constructing a table with zero buckets is a contract violation:
the first index computation in `put` or `get` mods by zero and panics
(modelled as `none`) rather than silently corrupting the table; under the
precondition of at least one bucket, the panic branch is unreachable for
every `put` and `get`, so both operations are total. -/
theorem C8_zero_buckets_panic (H : K → ℕ) (lf : F64) (k : K) (v : V) :
    (HashTable.«with» 0 lf : HashTable K V).put H k v = none ∧
    (HashTable.«with» 0 lf : HashTable K V).get H k = none ∧
    ∀ t : HashTable K V, 1 ≤ t.buckets.length →
      (∃ t', t.put H k v = some t') ∧ ∃ r, t.get H k = some r := by
  refine ⟨rfl, rfl, ?_⟩
  intro t hpos
  refine ⟨?_, ⟨_, get_eq H t hpos k⟩⟩
  obtain ⟨t', h, _⟩ := put_total H t hpos k v
  exact ⟨t', h⟩

theorem C8_zero_buckets_panic_witness :
    ((HashTable.«with» 0 (F64.val 1) : HashTable ℕ ℕ).put Hid 0 0
        = none) ∧
    ((HashTable.«with» 0 (F64.val 1) : HashTable ℕ ℕ).get Hid 0 = none) ∧
    (1 ≤ (HashTable.new : HashTable ℕ ℕ).buckets.length) ∧
    ((∃ t', (HashTable.new : HashTable ℕ ℕ).put Hid 0 0 = some t') ∧
      ∃ r, (HashTable.new : HashTable ℕ ℕ).get Hid 0 = some r) :=
  ⟨(C8_zero_buckets_panic Hid (F64.val 1) 0 0).1,
    (C8_zero_buckets_panic Hid (F64.val 1) 0 0).2.1,
    by decide,
    (C8_zero_buckets_panic Hid (F64.val 1) 0 0).2.2 HashTable.new
      (by decide)⟩

/-- **C9**: starting from a default table (16 buckets, load factor 1.0),
inserting 25 distinct keys with values via `put` yields entry count exactly
25 and bucket count 32: the 16th distinct insert reaches 16/16 and triggers
exactly one doubling from 16 to 32, after which 25/32 < 1.0 triggers no
further growth. -/
theorem C9_default_25_inserts (H : K → ℕ) (ops : List (K × V))
    (hlen : ops.length = 25) (hnd : (ops.map Prod.fst).Nodup) :
    ∃ t, (HashTable.new : HashTable K V).puts H ops = some t ∧
      t.size = 25 ∧ t.buckets.length = 32 := by
  obtain ⟨t, hputs, hsz, hshape⟩ := puts_fresh_trajectory H ops
    HashTable.new (WF_new H) rfl
    (fun p _ => get_mk_replicate H 16 (by omega) (F64.val 1) 0 p.1)
    hnd
    (by
      show 0 + ops.length ≤ 31
      rw [hlen]
      omega)
    rfl
  have hsz25 : t.size = 25 := by
    rw [hsz, hlen]
    rfl
  refine ⟨t, hputs, hsz25, ?_⟩
  rw [hshape, hsz25]
  rfl

theorem C9_default_25_inserts_witness :
    ((List.range 25).map fun i => (i, i)).length = 25 ∧
    ((((List.range 25).map fun i => (i, i)).map Prod.fst).Nodup) ∧
    ∃ t, (HashTable.new : HashTable ℕ ℕ).puts Hid
        ((List.range 25).map fun i => (i, i)) = some t ∧
      t.size = 25 ∧ t.buckets.length = 32 :=
  ⟨by decide, by decide,
    C9_default_25_inserts Hid _ (by decide) (by decide)⟩

/-- **C10**: for a table constructed with a NaN load factor, no `put` ever
triggers growth — the IEEE comparison `ratio >= NaN` is false — so the
bucket count stays at its initial value across any sequence of puts, while
`get`/`put` membership behaviour is unaffected. -/
theorem C10_nan_never_grows (H : K → ℕ) (n : ℕ) (hn : 1 ≤ n)
    (ops : List (K × V)) :
    ∃ t, (HashTable.«with» n F64.nan : HashTable K V).puts H ops = some t ∧
      t.buckets.length = n ∧
      ∀ k, t.get H k = some (modelOf ops k) := by
  obtain ⟨t, hputs, _, _, _, hnan, hget⟩ :=
    puts_spec H ops _ (WF_with H n hn F64.nan)
  refine ⟨t, hputs, ?_, ?_⟩
  · rw [hnan rfl]
    show (List.replicate n ([] : List (HashNode K V))).length = n
    rw [List.length_replicate]
  · intro k
    rw [hget k]
    cases hmo : modelOf ops k with
    | some v => simp
    | none =>
      simp only []
      exact get_mk_replicate H n hn F64.nan 0 k

theorem C10_nan_never_grows_witness :
    1 ≤ 1 ∧
    ∃ t, (HashTable.«with» 1 F64.nan : HashTable ℕ ℕ).puts Hid
        [(3, 4), (5, 6)] = some t ∧
      t.buckets.length = 1 ∧
      ∀ k, t.get Hid k = some (modelOf [(3, 4), (5, 6)] k) :=
  ⟨by decide, C10_nan_never_grows Hid 1 (by decide) [(3, 4), (5, 6)]⟩
